import Mathlib

/-!
Verification development for the Homomorphic_encryption repository.

The repository wraps the Paillier cryptosystem (provided by the `phe`
library) behind a small JSON/HTTP layer:

* `app/encryption.py` — serialization of keys and ciphertexts, and the
  homomorphic operations (`encrypt_number`, `decrypt_number`,
  `add_encrypted_numbers`, `multiply_encrypted_by_scalar`);
* `app/routes.py` — the `/encrypt`, `/compute`, `/decrypt` endpoints.

The JSON plumbing is embedded directly from the source.  The Paillier
engine itself lives in the external `phe` library, so it is modelled from
the specification (sections 4.1-4.3): `n = p*q`, `g = n + 1`, ciphertext
`g^m * r^n mod n^2`, decryption `L(c^lambda mod n^2) * mu mod n` with
`lambda = lcm(p-1, q-1)` and `mu = lambda^(-1) mod n`; a floating-point
plaintext is carried as an exact pair (mantissa, exponent) denoting
`mantissa * 16^exponent`, mirroring the encoding convention the spec
describes, so "within encoding tolerance" becomes exact equality of the
encoded values.
-/

namespace HomEnc

/-- A scalar JSON value as produced and consumed by the repository: either a
JSON numeral (Python ints round-trip through `json` with arbitrary
precision) or a JSON string. -/
inductive JLit where
  | num (z : ℤ)
  | str (s : String)
deriving DecidableEq

/-- The JSON shapes the repository actually reads and writes: a scalar, or a
flat object whose fields are scalars (`{"n": ...}`, `{"p": ..., "q": ...}`,
`{"ciphertext": ..., "exponent": ...}`). -/
inductive Json where
  | lit (v : JLit)
  | obj (fields : List (String × JLit))
deriving DecidableEq

/-- Errors a request can surface.  `keyError`, `valueError`, `typeError` and
`indexError` model the corresponding Python exceptions; `httpError` models
FastAPI's `HTTPException`.  The remaining constructors are the typed error
taxonomy of the specification (section 7); they are needed to state the
claims that mention them. -/
inductive PyErr where
  | keyError (field : String)
  | valueError
  | typeError
  | indexError
  | httpError (status : ℕ) (detail : String)
  | codecError (field : String)
  | emptyOperandError
  | keyMismatchError
deriving DecidableEq

/-- Decidable equality for `Except` results, so that concrete runs of the
embedded operations can be checked by `decide`. -/
instance {e a : Type} [DecidableEq e] [DecidableEq a] : DecidableEq (Except e a) := fun x y =>
  match x, y with
  | .error e1, .error e2 =>
    if h : e1 = e2 then isTrue (by rw [h]) else isFalse (by intro hc; cases hc; exact h rfl)
  | .error _, .ok _ => isFalse (by intro hc; cases hc)
  | .ok _, .error _ => isFalse (by intro hc; cases hc)
  | .ok v1, .ok v2 =>
    if h : v1 = v2 then isTrue (by rw [h]) else isFalse (by intro hc; cases hc; exact h rfl)

/-! ### Decimal strings

`encryption.py` serializes the ciphertext with Python `str(...)` and parses
it back with `int(...)`.  We model the two conversions by an explicit
base-10 printer and parser. -/

/-- The decimal digit character for a digit value below ten. -/
def digitChar (d : ℕ) : Char :=
  match d with
  | 0 => '0' | 1 => '1' | 2 => '2' | 3 => '3' | 4 => '4'
  | 5 => '5' | 6 => '6' | 7 => '7' | 8 => '8' | _ => '9'

/-- The value of a decimal digit character, `none` on anything else. -/
def digitVal? (ch : Char) : Option ℕ :=
  if 48 ≤ ch.toNat ∧ ch.toNat ≤ 57 then some (ch.toNat - 48) else none

/-- Parse a list of characters as decimal digits, most significant first. -/
def parseDigits : List Char → Option (List ℕ)
  | [] => some []
  | ch :: rest =>
    match digitVal? ch, parseDigits rest with
    | some d, some ds => some (d :: ds)
    | _, _ => none

/-- Base-10 digits, little-endian, by fuel recursion (so that concrete
serializations can be evaluated by the kernel). -/
def digitsFuel : ℕ → ℕ → List ℕ
  | 0, _ => []
  | _ + 1, 0 => []
  | fuel + 1, n + 1 => (n + 1) % 10 :: digitsFuel fuel ((n + 1) / 10)

/-- Base-10 digits of a natural number, little-endian. -/
def decDigits (n : ℕ) : List ℕ := digitsFuel n n

/-- Model of Python `str(c)` for a natural number. -/
def natToDecimal (c : ℕ) : String :=
  if c = 0 then "0" else String.mk ((decDigits c).reverse.map digitChar)

/-- Parse a nonempty all-digit character list as a natural number. -/
def parseNatDec? (l : List Char) : Option ℕ :=
  match parseDigits l with
  | some (d :: ds) => some (Nat.ofDigits 10 ((d :: ds).reverse))
  | _ => none

/-- Model of Python `int(s)` on a decimal string (optional leading minus
sign; anything non-numeric fails). -/
def strToInt? (s : String) : Option ℤ :=
  match s.data with
  | [] => none
  | ch :: rest =>
    if ch = '-' then (parseNatDec? rest).map (fun m => -(m : ℤ))
    else (parseNatDec? (ch :: rest)).map (fun m => (m : ℤ))

/-- Model of Python `s.lower()` (ASCII case folding, as used for the
`operation` strings of the `/compute` route). -/
def pyLower (s : String) : String := String.mk (s.data.map Char.toLower)

/-! ### Python dictionary access and int conversion -/

/-- Model of `data[k]` on a decoded JSON value: a missing field raises
`KeyError(k)`; indexing a non-dict raises `TypeError`. -/
def getItem (j : Json) (k : String) : Except PyErr JLit :=
  match j with
  | .obj fields =>
    match fields.lookup k with
    | some v => .ok v
    | none => .error (.keyError k)
  | .lit _ => .error .typeError

/-- Model of Python `int(v)` on a decoded JSON scalar: an int is returned
unchanged, a string is parsed as decimal (raising `ValueError` when it is
not numeric). -/
def pyInt (v : JLit) : Except PyErr ℤ :=
  match v with
  | .num z => .ok z
  | .str s =>
    match strToInt? s with
    | some z => .ok z
    | none => .error .valueError

/-! ### The Paillier engine, modelled from the spec (the `phe` library is
not part of the repository source). -/

namespace Paillier

/-- Modelled from the spec: `lambda = lcm(p - 1, q - 1)` for the private
key primes (spec section 3, derived value of the PrivateKey). -/
def lam (p q : ℕ) : ℕ := Nat.lcm (p - 1) (q - 1)

/-- Smallest multiplicative inverse of `a` modulo `nn`, found by search;
`0` when none exists.  Used to realize `mu = lambda^(-1) mod n`. -/
def invMod (nn a : ℕ) : ℕ :=
  ((List.range nn).find? (fun m => (a * m) % nn == 1)).getD 0

/-- Modelled from the spec: `mu = lambda^(-1) mod n` (spec section 3),
computed on demand. -/
def mu (p q : ℕ) : ℕ := invMod (p * q) (lam p q)

/-- Modelled from the spec: the function `L(x) = (x - 1) / n` (integer
division) used by decryption (spec section 4.2). -/
def Lfun (nn x : ℕ) : ℕ := (x - 1) / nn

/-- Modelled from the spec: Paillier encryption of an integer plaintext
`m` with blinding factor `r`: `c = g^m * r^n mod n^2` with `g = n + 1`
(spec section 4.2). -/
def encryptRaw (nn m r : ℕ) : ℕ := ((nn + 1) ^ m * r ^ nn) % nn ^ 2

/-- Modelled from the spec: Paillier decryption
`L(c^lambda mod n^2) * mu mod n` (spec section 4.2). -/
def decryptRaw (p q c : ℕ) : ℕ :=
  (Lfun (p * q) (c ^ lam p q % (p * q) ^ 2) * mu p q) % (p * q)

/-- Modelled from the spec: a (possibly negative) mantissa is mapped into
the plaintext space `[0, n)` by reduction modulo `n` (spec section 4.2). -/
def encodeMantissa (nn : ℕ) (z : ℤ) : ℕ := (z % (nn : ℤ)).toNat

/-- Modelled from the spec: the decoded plaintext is read back as a signed
mantissa, the upper half of `[0, n)` representing negative values. -/
def decodeMantissa (nn m : ℕ) : ℤ :=
  if 2 * m ≤ nn then (m : ℤ) else (m : ℤ) - (nn : ℤ)

/-- A ciphertext class: `c` is (congruent mod `n^2` to) a Paillier
encryption of the integer plaintext `a` under some blinding unit. -/
def IsEnc (nn c a : ℕ) : Prop :=
  ∃ r : ℕ, Nat.Coprime r nn ∧ c ≡ (nn + 1) ^ a * r ^ nn [MOD nn ^ 2]

end Paillier

/-! ### The repository layer, embedded from `app/encryption.py` -/

namespace HomomorphicEncryption

open Paillier

/-- Embeds `serialize_public_key`: `json.dumps({'n': public_key.n})` — the
modulus is emitted as a JSON numeral, not a string. -/
def serialize_public_key (n : ℕ) : Json := .obj [("n", .num (n : ℤ))]

/-- Embeds `deserialize_public_key`: `int(json.loads(key_str)['n'])`. -/
def deserialize_public_key (j : Json) : Except PyErr ℤ := do
  let v ← getItem j "n"
  pyInt v

/-- Embeds `serialize_private_key`: `json.dumps({'p': ..., 'q': ...})` —
both primes emitted as JSON numerals. -/
def serialize_private_key (p q : ℕ) : Json :=
  .obj [("p", .num (p : ℤ)), ("q", .num (q : ℤ))]

/-- Embeds `deserialize_private_key`: `int(key_data['p'])`,
`int(key_data['q'])` (the public-key argument only seeds the reconstructed
object and is not part of the decoded data). -/
def deserialize_private_key (j : Json) : Except PyErr (ℤ × ℤ) := do
  let pv ← getItem j "p"
  let pz ← pyInt pv
  let qv ← getItem j "q"
  let qz ← pyInt qv
  pure (pz, qz)

/-- The serialized form of an `EncryptedNumber`:
`json.dumps({'ciphertext': str(...), 'exponent': ...})` — the ciphertext
as a decimal string, the exponent as a JSON numeral. -/
def serializeEnc (c : ℕ) (e : ℤ) : Json :=
  .obj [("ciphertext", .str (natToDecimal c)), ("exponent", .num e)]

/-- Embeds the `EncryptedNumber` reconstruction used throughout
`encryption.py`: `int(data['ciphertext'])` and `data['exponent']`.  Note
that no key reference is read — the wire form carries none. -/
def parse_enc (j : Json) : Except PyErr (ℤ × ℤ) := do
  let cv ← getItem j "ciphertext"
  let c ← pyInt cv
  let ev ← getItem j "exponent"
  let e ← pyInt ev
  pure (c, e)

/-- Reduce a reconstructed ciphertext integer into `[0, n^2)` (Paillier
arithmetic is modulo `n^2`). -/
def normC (nn : ℕ) (c : ℤ) : ℕ := (c % ((nn : ℤ) ^ 2)).toNat

/-- Embeds `encrypt_number`: Paillier-encrypt the encoded mantissa and
serialize as `{ciphertext, exponent}`.  The float-to-(mantissa, exponent)
encoding step and the blinding draw `r` happen inside `phe`, so mantissa,
exponent and blinding are explicit parameters here. -/
def encrypt_number (nn : ℕ) (z e : ℤ) (r : ℕ) : Json :=
  serializeEnc (encryptRaw nn (encodeMantissa nn z) r) e

/-- Embeds `decrypt_number`: reconstruct the `EncryptedNumber` from
`{ciphertext, exponent}` and decrypt; the result denotes
`decoded_mantissa * 16^exponent` as an exact rational. -/
def decrypt_number (p q : ℕ) (j : Json) : Except PyErr ℚ := do
  let ce ← parse_enc j
  let m := decryptRaw p q (normC (p * q) ce.1)
  pure ((decodeMantissa (p * q) m : ℚ) * (16 : ℚ) ^ ce.2)

/-- Modelled from the spec: addition of two reconstructed ciphertext
states.  Exponents are aligned to the smaller one by ciphertext
exponentiation (base 16), then the ciphertexts are multiplied mod `n^2`
(spec section 4.3). -/
def addTwo (nn : ℕ) (a b : ℕ × ℤ) : ℕ × ℤ :=
  let e := min a.2 b.2
  (((a.1 ^ (16 ^ (a.2 - e).toNat)) % nn ^ 2) *
     ((b.1 ^ (16 ^ (b.2 - e).toNat)) % nn ^ 2) % nn ^ 2, e)

/-- Embeds `add_encrypted_numbers`: deserialize the first operand
(`encrypted_nums[0]` — an empty list raises `IndexError`), then fold
homomorphic addition over the remaining operands and serialize. -/
def add_encrypted_numbers (nn : ℕ) (encrypted_nums : List Json) :
    Except PyErr Json :=
  match encrypted_nums with
  | [] => .error .indexError
  | j :: rest => do
    let a ← parse_enc j
    let res ← rest.foldlM
      (fun acc jj => do
        let b ← parse_enc jj
        pure (addTwo nn acc (normC nn b.1, b.2)))
      (normC nn a.1, a.2)
    pure (serializeEnc res.1 res.2)

/-- Embeds `multiply_encrypted_by_scalar`: the scalar is encoded as
(mantissa `km`, exponent `ke`) and the ciphertext is exponentiated by the
mod-`n` mantissa; exponents add (spec section 4.3, `phe` not in source). -/
def multiply_encrypted_by_scalar (nn : ℕ) (j : Json) (km ke : ℤ) :
    Except PyErr Json := do
  let a ← parse_enc j
  let res := (normC nn a.1) ^ encodeMantissa nn km % nn ^ 2
  pure (serializeEnc res (a.2 + ke))

end HomomorphicEncryption

/-! ### The `/compute` route, embedded from `app/routes.py` -/

open HomomorphicEncryption in
/-- Embeds `compute_on_encrypted`: deserialize the public key, lowercase
the operation, dispatch to `add`/`sum`/`multiply`, reject anything else
with HTTP 400; the surrounding handler re-raises `HTTPException` and maps
any other exception to HTTP 500. -/
def compute_on_encrypted (public_key : Json) (encrypted_numbers : List Json)
    (operation : String) (multiplier : Option (ℤ × ℤ)) : Except PyErr Json :=
  let body : Except PyErr Json := do
    let nZ ← deserialize_public_key public_key
    let nn := nZ.toNat
    let oper := pyLower operation
    if oper = "add" ∨ oper = "sum" then
      add_encrypted_numbers nn encrypted_numbers
    else if oper = "multiply" then
      match multiplier with
      | none => .error (.httpError 400 "Multiplier required for multiply operation")
      | some k =>
        match encrypted_numbers with
        | [] => .error .indexError
        | j :: _ => multiply_encrypted_by_scalar nn j k.1 k.2
    else
      .error (.httpError 400 "Invalid operation. Use add, sum, or multiply")
  match body with
  | .error (.httpError s d) => .error (.httpError s d)
  | .error _ => .error (.httpError 500 "Computation failed")
  | .ok v => .ok v

/-- The exact rational value denoted by a (mantissa, exponent) pair. -/
def encVal (z e : ℤ) : ℚ := (z : ℚ) * (16 : ℚ) ^ e

/-- Mantissa-level counterpart of `HomomorphicEncryption.addTwo`: align the
exponents to the smaller one and add the rescaled mantissas. -/
def alignAdd (a b : ℤ × ℤ) : ℤ × ℤ :=
  let e := min a.2 b.2
  (a.1 * 16 ^ (a.2 - e).toNat + b.1 * 16 ^ (b.2 - e).toNat, e)

/-- The reconstructed ciphertext state produced by encrypting an input
triple (mantissa, exponent, blinding factor). -/
def encPair (nn : ℕ) (it : ℤ × ℤ × ℕ) : ℕ × ℤ :=
  (Paillier.encryptRaw nn (Paillier.encodeMantissa nn it.1) it.2.2, it.2.1)

/-- Serialized field inspection: does field `k` of `j` carry its value as
a (decimal) string? -/
def fieldIsDecimalString (j : Json) (k : String) : Bool :=
  match getItem j k with
  | .ok (.str _) => true
  | _ => false

/-! ### Correctness of the modelled Paillier engine -/

namespace Paillier

theorem one_add_pow_modEq (nn a : ℕ) : (nn + 1) ^ a ≡ 1 + a * nn [MOD nn ^ 2] := by
  induction a with
  | zero => simpa using Nat.ModEq.refl 1
  | succ a ih =>
    calc (nn + 1) ^ (a + 1) = (nn + 1) ^ a * (nn + 1) := by ring
      _ ≡ (1 + a * nn) * (nn + 1) [MOD nn ^ 2] := Nat.ModEq.mul_right _ ih
      _ = (1 + (a + 1) * nn) + a * nn ^ 2 := by ring
      _ ≡ (1 + (a + 1) * nn) + 0 [MOD nn ^ 2] :=
        Nat.ModEq.add_left _ (Nat.modEq_zero_iff_dvd.mpr ⟨a, by ring⟩)
      _ = 1 + (a + 1) * nn := by ring

theorem pow_prime_sq {s : ℕ} (hs : s.Prime) {r : ℕ} (hrs : Nat.Coprime r s)
    {E : ℕ} (hE : s * (s - 1) ∣ E) : r ^ E ≡ 1 [MOD s ^ 2] := by
  obtain ⟨k, hk⟩ := hE
  have htot : Nat.totient (s ^ 2) = s * (s - 1) := by
    rw [Nat.totient_prime_pow hs (by norm_num : 0 < 2)]
    norm_num
  have hcop : Nat.Coprime r (s ^ 2) := hrs.pow_right 2
  have heuler := Nat.ModEq.pow_totient hcop
  rw [htot] at heuler
  calc r ^ E = (r ^ (s * (s - 1))) ^ k := by rw [hk, pow_mul]
    _ ≡ 1 ^ k [MOD s ^ 2] := heuler.pow k
    _ = 1 := one_pow k

theorem pow_blind {p q r : ℕ} (hp : p.Prime) (hq : q.Prime) (hpq : p ≠ q)
    (hr : Nat.Coprime r (p * q)) :
    r ^ (p * q * lam p q) ≡ 1 [MOD (p * q) ^ 2] := by
  have hcp : Nat.Coprime r p := Nat.Coprime.coprime_dvd_right (dvd_mul_right p q) hr
  have hcq : Nat.Coprime r q := Nat.Coprime.coprime_dvd_right (dvd_mul_left q p) hr
  have hdp : p * (p - 1) ∣ p * q * lam p q := by
    calc p * (p - 1) ∣ p * (q * lam p q) :=
          mul_dvd_mul_left p (Dvd.dvd.mul_left (Nat.dvd_lcm_left _ _) q)
      _ = p * q * lam p q := by ring
  have hdq : q * (q - 1) ∣ p * q * lam p q := by
    calc q * (q - 1) ∣ q * (p * lam p q) :=
          mul_dvd_mul_left q (Dvd.dvd.mul_left (Nat.dvd_lcm_right _ _) p)
      _ = p * q * lam p q := by ring
  have h1 : r ^ (p * q * lam p q) ≡ 1 [MOD p ^ 2] := pow_prime_sq hp hcp hdp
  have h2 : r ^ (p * q * lam p q) ≡ 1 [MOD q ^ 2] := pow_prime_sq hq hcq hdq
  have hco2 : Nat.Coprime (p ^ 2) (q ^ 2) := Nat.Coprime.pow 2 2 ((Nat.coprime_primes hp hq).mpr hpq)
  have := (Nat.modEq_and_modEq_iff_modEq_mul hco2).mp ⟨h1, h2⟩
  rwa [← mul_pow] at this

theorem invMod_spec {nn a : ℕ} (h1 : 1 < nn) (hco : Nat.Coprime a nn) :
    a * invMod nn a ≡ 1 [MOD nn] := by
  haveI : NeZero nn := ⟨by omega⟩
  have hmul : (a : ZMod nn) * (a : ZMod nn)⁻¹ = 1 := ZMod.coe_mul_inv_eq_one a hco
  set u : ZMod nn := (a : ZMod nn)⁻¹ with hu
  have hvlt : u.val < nn := ZMod.val_lt u
  have hcand : (a * u.val) % nn = 1 := by
    have hcast : ((a * u.val : ℕ) : ZMod nn) = ((1 : ℕ) : ZMod nn) := by
      push_cast
      rw [ZMod.natCast_rightInverse u, hmul]
    have := (ZMod.natCast_eq_natCast_iff _ _ _).mp hcast
    have h2 := this
    unfold Nat.ModEq at h2
    rwa [Nat.mod_eq_of_lt h1] at h2
  have hex : ((List.range nn).find? (fun m => (a * m) % nn == 1)).isSome := by
    rw [List.find?_isSome]
    exact ⟨u.val, List.mem_range.mpr hvlt, by simpa using hcand⟩
  obtain ⟨y, hy⟩ := Option.isSome_iff_exists.mp hex
  have hpy : (a * y) % nn = 1 := by simpa using List.find?_some hy
  have hinv : invMod nn a = y := by
    unfold invMod
    rw [hy]
    rfl
  show (a * invMod nn a) % nn = 1 % nn
  rw [hinv, hpy, Nat.mod_eq_of_lt h1]

theorem isEnc_encryptRaw {nn : ℕ} (m : ℕ) {r : ℕ} (hr : Nat.Coprime r nn) :
    IsEnc nn (encryptRaw nn m r) m :=
  ⟨r, hr, Nat.mod_modEq _ _⟩

theorem IsEnc.mul {nn c1 c2 a1 a2 : ℕ} (h1 : IsEnc nn c1 a1) (h2 : IsEnc nn c2 a2) :
    IsEnc nn (c1 * c2) (a1 + a2) := by
  obtain ⟨r1, hr1, hc1⟩ := h1
  obtain ⟨r2, hr2, hc2⟩ := h2
  refine ⟨r1 * r2, hr1.mul hr2, ?_⟩
  calc c1 * c2 ≡ ((nn + 1) ^ a1 * r1 ^ nn) * ((nn + 1) ^ a2 * r2 ^ nn) [MOD nn ^ 2] :=
        hc1.mul hc2
    _ = (nn + 1) ^ (a1 + a2) * (r1 * r2) ^ nn := by rw [pow_add, mul_pow]; ring

theorem IsEnc.pow {nn c a : ℕ} (h : IsEnc nn c a) (k : ℕ) : IsEnc nn (c ^ k) (a * k) := by
  obtain ⟨r, hr, hc⟩ := h
  refine ⟨r ^ k, Nat.Coprime.pow_left k hr, ?_⟩
  calc c ^ k ≡ ((nn + 1) ^ a * r ^ nn) ^ k [MOD nn ^ 2] := hc.pow k
    _ = (nn + 1) ^ (a * k) * (r ^ k) ^ nn := by
        rw [mul_pow, ← pow_mul, ← pow_mul, ← pow_mul, Nat.mul_comm nn k]

theorem IsEnc.mod {nn c a : ℕ} (h : IsEnc nn c a) : IsEnc nn (c % nn ^ 2) a := by
  obtain ⟨r, hr, hc⟩ := h
  exact ⟨r, hr, (Nat.mod_modEq _ _).trans hc⟩

theorem decryptRaw_isEnc {p q : ℕ} (hp : p.Prime) (hq : q.Prime) (hpq : p ≠ q)
    (hco : Nat.Coprime (lam p q) (p * q)) {c a : ℕ} (h : IsEnc (p * q) c a) :
    decryptRaw p q c = a % (p * q) := by
  have hnn1 : 1 < p * q :=
    lt_of_lt_of_le (by norm_num) (Nat.mul_le_mul hp.two_le hq.two_le)
  obtain ⟨r, hr, hc⟩ := h
  have hstep : c ^ lam p q ≡ 1 + a * lam p q * (p * q) [MOD (p * q) ^ 2] := by
    calc c ^ lam p q ≡ ((p * q + 1) ^ a * r ^ (p * q)) ^ lam p q [MOD (p * q) ^ 2] :=
          hc.pow _
      _ = (p * q + 1) ^ (a * lam p q) * r ^ (p * q * lam p q) := by
          rw [mul_pow, ← pow_mul, ← pow_mul]
      _ ≡ (1 + a * lam p q * (p * q)) * 1 [MOD (p * q) ^ 2] :=
          Nat.ModEq.mul (one_add_pow_modEq (p * q) _) (pow_blind hp hq hpq hr)
      _ = 1 + a * lam p q * (p * q) := by ring
  have hsplit : a * lam p q * (p * q) =
      (a * lam p q) % (p * q) * (p * q) + a * lam p q / (p * q) * (p * q) ^ 2 := by
    conv_lhs => rw [← Nat.mod_add_div (a * lam p q) (p * q)]
    ring
  have hcong2 : c ^ lam p q ≡ 1 + (a * lam p q) % (p * q) * (p * q) [MOD (p * q) ^ 2] := by
    refine hstep.trans ?_
    rw [hsplit]
    calc 1 + ((a * lam p q) % (p * q) * (p * q) + a * lam p q / (p * q) * (p * q) ^ 2)
        = (1 + (a * lam p q) % (p * q) * (p * q)) + a * lam p q / (p * q) * (p * q) ^ 2 := by
          ring
      _ ≡ (1 + (a * lam p q) % (p * q) * (p * q)) + 0 [MOD (p * q) ^ 2] :=
          Nat.ModEq.add_left _ (Nat.modEq_zero_iff_dvd.mpr ⟨_, Nat.mul_comm _ _⟩)
      _ = 1 + (a * lam p q) % (p * q) * (p * q) := by ring
  have hmodlt : (a * lam p q) % (p * q) < p * q := Nat.mod_lt _ (by omega)
  have hlt : 1 + (a * lam p q) % (p * q) * (p * q) < (p * q) ^ 2 := by
    calc 1 + (a * lam p q) % (p * q) * (p * q)
        < p * q + (a * lam p q) % (p * q) * (p * q) := by omega
      _ = ((a * lam p q) % (p * q) + 1) * (p * q) := by ring
      _ ≤ (p * q) * (p * q) := Nat.mul_le_mul_right _ (by omega)
      _ = (p * q) ^ 2 := by ring
  have hxval : c ^ lam p q % (p * q) ^ 2 = 1 + (a * lam p q) % (p * q) * (p * q) := by
    have hx := hcong2
    unfold Nat.ModEq at hx
    rw [hx, Nat.mod_eq_of_lt hlt]
  have hL : Lfun (p * q) (1 + (a * lam p q) % (p * q) * (p * q)) = (a * lam p q) % (p * q) := by
    unfold Lfun
    rw [Nat.add_sub_cancel_left]
    exact Nat.mul_div_cancel _ (by omega)
  have hmu : lam p q * mu p q ≡ 1 [MOD p * q] := invMod_spec hnn1 hco
  show (Lfun (p * q) (c ^ lam p q % (p * q) ^ 2) * mu p q) % (p * q) = a % (p * q)
  rw [hxval, hL]
  calc (a * lam p q) % (p * q) * mu p q
      ≡ a * lam p q * mu p q [MOD p * q] := Nat.ModEq.mul_right _ (Nat.mod_modEq _ _)
    _ = a * (lam p q * mu p q) := by ring
    _ ≡ a * 1 [MOD p * q] := Nat.ModEq.mul_left a hmu
    _ = a := by ring

theorem encodeMantissa_lt {nn : ℕ} (h : 0 < nn) (z : ℤ) : encodeMantissa nn z < nn := by
  unfold encodeMantissa
  have h0 : (0 : ℤ) < (nn : ℤ) := by exact_mod_cast h
  have h1 := Int.emod_lt_of_pos z h0
  have h2 := Int.emod_nonneg z (by omega : (nn : ℤ) ≠ 0)
  omega

theorem encodeMantissa_modEq {nn : ℕ} (h : 0 < nn) (z : ℤ) :
    (encodeMantissa nn z : ℤ) ≡ z [ZMOD (nn : ℤ)] := by
  unfold encodeMantissa
  have h0 : (0 : ℤ) < (nn : ℤ) := by exact_mod_cast h
  have h2 := Int.emod_nonneg z (by omega : (nn : ℤ) ≠ 0)
  rw [Int.toNat_of_nonneg h2]
  exact Int.emod_emod_of_dvd z dvd_rfl

theorem decodeMantissa_of_modEq {nn : ℕ} (h1 : 1 < nn) {u : ℕ} {M : ℤ}
    (hu : u < nn) (hcong : (u : ℤ) ≡ M [ZMOD (nn : ℤ)]) (hM : 2 * M.natAbs < nn) :
    decodeMantissa nn u = M := by
  obtain ⟨k, hk⟩ : ((nn : ℤ)) ∣ M - u := Int.ModEq.dvd hcong
  have hnn0 : (0 : ℤ) < (nn : ℤ) := by exact_mod_cast (by omega : 0 < nn)
  have h2M : |2 * M| < (nn : ℤ) := by
    rw [abs_mul]
    have habs : |M| = (M.natAbs : ℤ) := Int.abs_eq_natAbs M
    rw [habs, (by norm_num : |(2 : ℤ)| = 2)]
    exact_mod_cast hM
  have hrange := abs_lt.mp h2M
  have hu0 : (0 : ℤ) ≤ (u : ℤ) := Int.natCast_nonneg u
  have huZ : (u : ℤ) < (nn : ℤ) := by exact_mod_cast hu
  unfold decodeMantissa
  by_cases hcase : 2 * u ≤ nn
  · rw [if_pos hcase]
    have hcaseZ : 2 * (u : ℤ) ≤ (nn : ℤ) := by exact_mod_cast hcase
    have hk0 : k = 0 := by
      by_contra hk0
      rcases lt_or_gt_of_ne hk0 with hneg | hpos
      · have hle : (nn : ℤ) * k ≤ (nn : ℤ) * (-1) :=
          mul_le_mul_of_nonneg_left (by omega : k ≤ -1) (le_of_lt hnn0)
        linarith [hrange.1]
      · have hge : (nn : ℤ) * 1 ≤ (nn : ℤ) * k :=
          mul_le_mul_of_nonneg_left (by omega : (1 : ℤ) ≤ k) (le_of_lt hnn0)
        linarith [hrange.2]
    rw [hk0, mul_zero] at hk
    linarith
  · rw [if_neg hcase]
    have hcaseZ : (nn : ℤ) < 2 * (u : ℤ) := by
      have : nn < 2 * u := by omega
      exact_mod_cast this
    have hk1 : k = -1 := by
      by_contra hk1
      rcases lt_or_gt_of_ne hk1 with hneg | hpos
      · have hle : (nn : ℤ) * k ≤ (nn : ℤ) * (-2) :=
          mul_le_mul_of_nonneg_left (by omega : k ≤ -2) (le_of_lt hnn0)
        linarith [hrange.1]
      · have hge : (nn : ℤ) * 0 ≤ (nn : ℤ) * k :=
          mul_le_mul_of_nonneg_left (by omega : (0 : ℤ) ≤ k) (le_of_lt hnn0)
        linarith [hrange.2]
    rw [hk1] at hk
    linarith

end Paillier

/-! ### Decimal codec round trip -/

theorem digitVal?_digitChar {d : ℕ} (h : d < 10) : digitVal? (digitChar d) = some d := by
  interval_cases d <;> decide

theorem digitChar_ne_minus {d : ℕ} (h : d < 10) : digitChar d ≠ '-' := by
  interval_cases d <;> decide

theorem parseDigits_map {ds : List ℕ} (h : ∀ d ∈ ds, d < 10) :
    parseDigits (ds.map digitChar) = some ds := by
  induction ds with
  | nil => rfl
  | cons d tl ih =>
    have hd : d < 10 := h d (List.mem_cons_self d tl)
    have htl : ∀ x ∈ tl, x < 10 := fun x hx => h x (List.mem_cons_of_mem d hx)
    simp only [List.map_cons, parseDigits, digitVal?_digitChar hd, ih htl]

theorem digitsFuel_eq_digits {fuel n : ℕ} (h : n ≤ fuel) :
    digitsFuel fuel n = Nat.digits 10 n := by
  induction fuel generalizing n with
  | zero =>
    interval_cases n
    simp [digitsFuel]
  | succ fuel ih =>
    match n with
    | 0 => simp [digitsFuel]
    | m + 1 =>
      rw [show digitsFuel (fuel + 1) (m + 1)
          = (m + 1) % 10 :: digitsFuel fuel ((m + 1) / 10) from rfl]
      rw [Nat.digits_def' (by norm_num : 1 < 10) (Nat.succ_pos m)]
      have hdiv : (m + 1) / 10 ≤ fuel :=
        le_trans (Nat.le_of_lt_succ (Nat.div_lt_self (Nat.succ_pos m) (by norm_num)))
          (Nat.le_of_succ_le_succ h)
      rw [ih hdiv]

theorem decDigits_eq_digits (n : ℕ) : decDigits n = Nat.digits 10 n :=
  digitsFuel_eq_digits le_rfl

theorem strToInt?_natToDecimal (c : ℕ) : strToInt? (natToDecimal c) = some (c : ℤ) := by
  by_cases hc : c = 0
  · subst hc; rfl
  · have hdd : decDigits c = Nat.digits 10 c := decDigits_eq_digits c
    have hne : Nat.digits 10 c ≠ [] := Nat.digits_ne_nil_iff_ne_zero.mpr hc
    have hlt : ∀ d ∈ (Nat.digits 10 c).reverse, d < 10 := by
      intro d hd
      exact Nat.digits_lt_base (by norm_num) (List.mem_reverse.mp hd)
    rcases hrev : (Nat.digits 10 c).reverse with _ | ⟨d, tl⟩
    · exact absurd (List.reverse_eq_nil_iff.mp hrev) hne
    · rw [hrev] at hlt
      have hd10 : d < 10 := hlt d (List.mem_cons_self d tl)
      have : natToDecimal c = String.mk ((d :: tl).map digitChar) := by
        simp [natToDecimal, hc, hdd, hrev]
      rw [this]
      show strToInt? (String.mk (digitChar d :: tl.map digitChar)) = some (c : ℤ)
      unfold strToInt?
      simp only [String.data]
      rw [if_neg (digitChar_ne_minus hd10)]
      have hparse : parseNatDec? (digitChar d :: tl.map digitChar) = some c := by
        unfold parseNatDec?
        have := parseDigits_map hlt
        simp only [List.map_cons] at this
        rw [this]
        show some (Nat.ofDigits 10 ((d :: tl).reverse)) = some c
        have hrr : (d :: tl).reverse = Nat.digits 10 c := by
          rw [← hrev, List.reverse_reverse]
        rw [hrr, Nat.ofDigits_digits]
      rw [hparse]
      rfl

/-! ### Behaviour of the serialization layer -/

namespace HomomorphicEncryption

open Paillier

theorem parse_enc_serializeEnc (c : ℕ) (e : ℤ) :
    parse_enc (serializeEnc c e) = .ok ((c : ℤ), e) := by
  simp [parse_enc, serializeEnc, getItem, pyInt, List.lookup, strToInt?_natToDecimal,
    bind, Except.bind, pure, Except.pure]

theorem normC_natCast {nn c : ℕ} (hc : c < nn ^ 2) : normC nn (c : ℤ) = c := by
  unfold normC
  rw [Int.emod_eq_of_lt (Int.natCast_nonneg c) (by exact_mod_cast hc)]
  exact Int.toNat_natCast c

theorem encryptRaw_lt {nn : ℕ} (h : 0 < nn) (m r : ℕ) : encryptRaw nn m r < nn ^ 2 :=
  Nat.mod_lt _ (by positivity)

theorem decrypt_number_serializeEnc (p q : ℕ) (c : ℕ) (e : ℤ)
    (hc : c < (p * q) ^ 2) :
    decrypt_number p q (serializeEnc c e) =
      .ok ((decodeMantissa (p * q) (decryptRaw p q c) : ℚ) * (16 : ℚ) ^ e) := by
  unfold decrypt_number
  rw [parse_enc_serializeEnc]
  show Except.ok ((decodeMantissa (p * q) (decryptRaw p q (normC (p * q) (c : ℤ))) : ℚ)
      * (16 : ℚ) ^ e) = _
  rw [normC_natCast hc]

theorem decrypt_number_serializeEnc0 (p q : ℕ) (c : ℕ) (e : ℤ) :
    decrypt_number p q (serializeEnc c e) =
      .ok ((decodeMantissa (p * q) (decryptRaw p q (normC (p * q) (c : ℤ))) : ℚ)
        * (16 : ℚ) ^ e) := by
  unfold decrypt_number
  rw [parse_enc_serializeEnc]
  rfl

theorem bind_ok_apply {a b : Type} (x : a) (f : a → Except PyErr b) :
    (Except.ok x : Except PyErr a).bind f = f x := rfl

theorem foldlM_addTwo_serialized (nn : ℕ) (xs : List (ℕ × ℤ)) (s : ℕ × ℤ) :
    (xs.map (fun y => serializeEnc y.1 y.2)).foldlM
        (fun acc jj => do
          let b ← parse_enc jj
          pure (addTwo nn acc (normC nn b.1, b.2)))
        s
      = .ok (xs.foldl (fun acc y => addTwo nn acc (normC nn (y.1 : ℤ), y.2)) s) := by
  induction xs generalizing s with
  | nil => rfl
  | cons y ys ih =>
    simp only [List.map_cons, List.foldlM_cons, parse_enc_serializeEnc, List.foldl_cons,
      bind, Except.bind, pure, Except.pure]
    exact ih _

theorem add_encrypted_serialized (nn : ℕ) (x0 : ℕ × ℤ) (xs : List (ℕ × ℤ)) :
    add_encrypted_numbers nn ((x0 :: xs).map (fun y => serializeEnc y.1 y.2)) =
      .ok (serializeEnc
        (xs.foldl (fun acc y => addTwo nn acc (normC nn (y.1 : ℤ), y.2))
          (normC nn (x0.1 : ℤ), x0.2)).1
        (xs.foldl (fun acc y => addTwo nn acc (normC nn (y.1 : ℤ), y.2))
          (normC nn (x0.1 : ℤ), x0.2)).2) := by
  simp only [List.map_cons, add_encrypted_numbers, parse_enc_serializeEnc]
  show ((xs.map fun y => serializeEnc y.1 y.2).foldlM
      (fun acc jj => do
        let b ← parse_enc jj
        pure (addTwo nn acc (normC nn b.1, b.2)))
      (normC nn (x0.1 : ℤ), x0.2) >>= fun res => pure (serializeEnc res.1 res.2)) = _
  rw [foldlM_addTwo_serialized]
  rfl

theorem addTwo_fst_lt {nn : ℕ} (h : 0 < nn) (a b : ℕ × ℤ) : (addTwo nn a b).1 < nn ^ 2 :=
  Nat.mod_lt _ (by positivity)

theorem foldl_addTwo_fst_lt {nn : ℕ} (h : 0 < nn) (l : List (ℤ × ℤ × ℕ)) (s : ℕ × ℤ)
    (hs : s.1 < nn ^ 2) :
    ((l.foldl (fun acc y => addTwo nn acc (encPair nn y)) s).1) < nn ^ 2 := by
  induction l generalizing s with
  | nil => exact hs
  | cons y ys ih => exact ih _ (addTwo_fst_lt h _ _)

theorem addTwo_isEnc {nn : ℕ} {c1 a1 : ℕ} (e1 : ℤ) {c2 a2 : ℕ} (e2 : ℤ)
    (h1 : IsEnc nn c1 a1) (h2 : IsEnc nn c2 a2) :
    IsEnc nn (addTwo nn (c1, e1) (c2, e2)).1
      (a1 * 16 ^ (e1 - min e1 e2).toNat + a2 * 16 ^ (e2 - min e1 e2).toNat) :=
  (((h1.pow _).mod).mul ((h2.pow _).mod)).mod

theorem pow_sub_toNat_mul (x e : ℤ) (h : e ≤ x) :
    (16 : ℚ) ^ ((x - e).toNat) * (16 : ℚ) ^ e = (16 : ℚ) ^ x := by
  rw [← zpow_natCast (16 : ℚ) (x - e).toNat, Int.toNat_of_nonneg (by omega : 0 ≤ x - e),
    ← zpow_add₀ (by norm_num : (16 : ℚ) ≠ 0)]
  congr 1
  omega

theorem alignAdd_val (a b : ℤ × ℤ) :
    encVal (alignAdd a b).1 (alignAdd a b).2 = encVal a.1 a.2 + encVal b.1 b.2 := by
  unfold alignAdd encVal
  push_cast
  rw [add_mul, mul_assoc, mul_assoc, pow_sub_toNat_mul _ _ (min_le_left a.2 b.2),
    pow_sub_toNat_mul _ _ (min_le_right a.2 b.2)]

theorem foldl_alignAdd_val (l : List (ℤ × ℤ)) (t : ℤ × ℤ) :
    encVal (l.foldl alignAdd t).1 (l.foldl alignAdd t).2
      = encVal t.1 t.2 + (l.map (fun x => encVal x.1 x.2)).sum := by
  induction l generalizing t with
  | nil => simp
  | cons y ys ih =>
    simp only [List.foldl_cons, List.map_cons, List.sum_cons]
    rw [ih, alignAdd_val]
    ring

theorem foldl_encPair_spec {nn : ℕ} (h0 : 0 < nn)
    (l : List (ℤ × ℤ × ℕ)) (hl : ∀ it ∈ l, Nat.Coprime it.2.2 nn)
    (s : ℕ × ℤ) (t : ℤ × ℤ) (a : ℕ)
    (hIs : IsEnc nn s.1 a) (hc : (a : ℤ) ≡ t.1 [ZMOD (nn : ℤ)]) (he : s.2 = t.2) :
    ∃ b : ℕ,
      IsEnc nn ((l.foldl (fun acc y => addTwo nn acc (encPair nn y)) s).1) b ∧
      ((b : ℤ) ≡ ((l.foldl (fun acc y => alignAdd acc (y.1, y.2.1)) t).1) [ZMOD (nn : ℤ)]) ∧
      ((l.foldl (fun acc y => addTwo nn acc (encPair nn y)) s).2 =
        (l.foldl (fun acc y => alignAdd acc (y.1, y.2.1)) t).2) := by
  induction l generalizing s t a with
  | nil => exact ⟨a, hIs, hc, he⟩
  | cons y ys ih =>
    simp only [List.foldl_cons]
    have hy : Nat.Coprime y.2.2 nn := hl y (List.mem_cons_self _ _)
    have hys : ∀ it ∈ ys, Nat.Coprime it.2.2 nn := fun it h => hl it (List.mem_cons_of_mem _ h)
    have hEncY : IsEnc nn (encPair nn y).1 (encodeMantissa nn y.1) := isEnc_encryptRaw _ hy
    have hstep0 := addTwo_isEnc s.2 y.2.1 hIs hEncY
    have hstep : IsEnc nn (addTwo nn s (encPair nn y)).1
        (a * 16 ^ ((t.2 - min t.2 y.2.1).toNat)
          + encodeMantissa nn y.1 * 16 ^ ((y.2.1 - min t.2 y.2.1).toNat)) := by
      rw [← he]
      exact hstep0
    have hcongStep : ((a * 16 ^ ((t.2 - min t.2 y.2.1).toNat)
          + encodeMantissa nn y.1 * 16 ^ ((y.2.1 - min t.2 y.2.1).toNat) : ℕ) : ℤ)
        ≡ (alignAdd t (y.1, y.2.1)).1 [ZMOD (nn : ℤ)] := by
      show _ ≡ t.1 * 16 ^ ((t.2 - min t.2 y.2.1).toNat)
          + y.1 * 16 ^ ((y.2.1 - min t.2 y.2.1).toNat) [ZMOD ((nn : ℤ))]
      push_cast
      exact Int.ModEq.add (Int.ModEq.mul_right _ hc)
        (Int.ModEq.mul_right _ (encodeMantissa_modEq h0 y.1))
    have hexp : (addTwo nn s (encPair nn y)).2 = (alignAdd t (y.1, y.2.1)).2 := by
      show min s.2 y.2.1 = min t.2 y.2.1
      rw [he]
    exact ih hys (addTwo nn s (encPair nn y)) (alignAdd t (y.1, y.2.1)) _ hstep hcongStep hexp

theorem natCast_mod_modEq (X nn : ℕ) :
    ((X % nn : ℕ) : ℤ) ≡ (X : ℤ) [ZMOD ((nn : ℕ) : ℤ)] := by
  push_cast
  exact Int.emod_emod_of_dvd _ dvd_rfl

/-! ### Claim theorems -/

/-- C2: for every float in the supported precision range (an exactly
encoded mantissa-exponent pair whose mantissa fits the plaintext space)
and every freshly generated key pair (distinct primes with the Paillier
coprimality invariant), decrypting the encryption returns the value
exactly (hence within encoding tolerance). -/
theorem C2_encrypt_decrypt_roundtrip {p q : ℕ} (hp : p.Prime) (hq : q.Prime)
    (hpq : p ≠ q) (hco : Nat.Coprime (lam p q) (p * q))
    (z e : ℤ) (r : ℕ) (hr : Nat.Coprime r (p * q))
    (hz : 2 * z.natAbs < p * q) :
    decrypt_number p q (encrypt_number (p * q) z e r) = .ok (encVal z e) := by
  have h1 : 1 < p * q := lt_of_lt_of_le (by norm_num) (Nat.mul_le_mul hp.two_le hq.two_le)
  have h0 : 0 < p * q := by omega
  unfold encrypt_number
  rw [decrypt_number_serializeEnc _ _ _ _ (encryptRaw_lt h0 _ _)]
  rw [decryptRaw_isEnc hp hq hpq hco (isEnc_encryptRaw (encodeMantissa (p * q) z) hr)]
  have hmlt : encodeMantissa (p * q) z < p * q := encodeMantissa_lt h0 z
  rw [Nat.mod_eq_of_lt hmlt]
  rw [decodeMantissa_of_modEq h1 hmlt (encodeMantissa_modEq h0 z) hz]
  rfl

/-- Witness for C2: under the key pair (5, 7), encrypting the value -3
(exponent 0, blinding 2) and decrypting returns exactly -3. -/
theorem C2_encrypt_decrypt_roundtrip_witness :
    decrypt_number 5 7 (encrypt_number (5 * 7) (-3) 0 2) = .ok (encVal (-3) 0) :=
  C2_encrypt_decrypt_roundtrip (by decide) (by decide) (by decide) (by decide)
    (-3) 0 2 (by decide) (by decide)

/-- C3: for every encoded float `a`, every encoded scalar `k` and every
valid key pair, decrypting the scalar multiplication of the encryption of
`a` by `k` yields exactly `a * k` (hence within encoding tolerance),
provided the product mantissa stays in the plaintext range. -/
theorem C3_scalar_multiply_homomorphic {p q : ℕ} (hp : p.Prime) (hq : q.Prime)
    (hpq : p ≠ q) (hco : Nat.Coprime (lam p q) (p * q))
    (z e : ℤ) (r : ℕ) (hr : Nat.Coprime r (p * q)) (km ke : ℤ)
    (hrange : 2 * (z * km).natAbs < p * q) :
    (multiply_encrypted_by_scalar (p * q) (encrypt_number (p * q) z e r) km ke).bind
        (decrypt_number p q)
      = .ok (encVal z e * encVal km ke) := by
  have h1 : 1 < p * q := lt_of_lt_of_le (by norm_num) (Nat.mul_le_mul hp.two_le hq.two_le)
  have h0 : 0 < p * q := by omega
  have hm : multiply_encrypted_by_scalar (p * q) (encrypt_number (p * q) z e r) km ke
      = .ok (serializeEnc
          ((encryptRaw (p * q) (encodeMantissa (p * q) z) r) ^ encodeMantissa (p * q) km
            % (p * q) ^ 2)
          (e + ke)) := by
    unfold multiply_encrypted_by_scalar encrypt_number
    rw [parse_enc_serializeEnc]
    show Except.ok (serializeEnc
        ((normC (p * q) ((encryptRaw (p * q) (encodeMantissa (p * q) z) r : ℕ) : ℤ))
            ^ encodeMantissa (p * q) km % (p * q) ^ 2)
        (e + ke)) = _
    rw [normC_natCast (encryptRaw_lt h0 _ _)]
  rw [hm]
  show decrypt_number p q (serializeEnc
      ((encryptRaw (p * q) (encodeMantissa (p * q) z) r) ^ encodeMantissa (p * q) km
        % (p * q) ^ 2) (e + ke)) = _
  rw [decrypt_number_serializeEnc _ _ _ _ (Nat.mod_lt _ (by positivity))]
  have hIs : IsEnc (p * q)
      ((encryptRaw (p * q) (encodeMantissa (p * q) z) r) ^ encodeMantissa (p * q) km
        % (p * q) ^ 2)
      (encodeMantissa (p * q) z * encodeMantissa (p * q) km) :=
    ((isEnc_encryptRaw _ hr).pow _).mod
  rw [decryptRaw_isEnc hp hq hpq hco hIs]
  have hcong : (((encodeMantissa (p * q) z * encodeMantissa (p * q) km) % (p * q) : ℕ) : ℤ)
      ≡ z * km [ZMOD ((p * q : ℕ) : ℤ)] := by
    refine (natCast_mod_modEq _ _).trans ?_
    push_cast
    exact Int.ModEq.mul (encodeMantissa_modEq h0 z) (encodeMantissa_modEq h0 km)
  rw [decodeMantissa_of_modEq h1 (Nat.mod_lt _ (by omega)) hcong hrange]
  unfold encVal
  rw [zpow_add₀ (by norm_num : (16 : ℚ) ≠ 0)]
  push_cast
  ring_nf

/-- C1: for every nonempty collection of encoded floats and every valid
key pair, decrypting the homomorphic sum of their encryptions yields
exactly the sum of the values (hence within encoding tolerance), provided
the aligned sum mantissa stays in the plaintext range; in particular the
pair case and the 10 + 20 + 30 = 60 scenario. -/
theorem C1_additive_homomorphism {p q : ℕ} (hp : p.Prime) (hq : q.Prime)
    (hpq : p ≠ q) (hco : Nat.Coprime (lam p q) (p * q))
    (x0 : ℤ × ℤ × ℕ) (xs : List (ℤ × ℤ × ℕ))
    (hr : ∀ it ∈ x0 :: xs, Nat.Coprime it.2.2 (p * q))
    (hrange : 2 * ((xs.foldl (fun acc y => alignAdd acc (y.1, y.2.1))
        (x0.1, x0.2.1)).1).natAbs < p * q) :
    (add_encrypted_numbers (p * q)
        ((x0 :: xs).map (fun it => encrypt_number (p * q) it.1 it.2.1 it.2.2))).bind
      (decrypt_number p q)
      = .ok (((x0 :: xs).map (fun it => encVal it.1 it.2.1)).sum) := by
  have h1 : 1 < p * q := lt_of_lt_of_le (by norm_num) (Nat.mul_le_mul hp.two_le hq.two_le)
  have h0 : 0 < p * q := by omega
  have hmap : (x0 :: xs).map (fun it => encrypt_number (p * q) it.1 it.2.1 it.2.2)
      = (encPair (p * q) x0 :: xs.map (encPair (p * q))).map
          (fun y => serializeEnc y.1 y.2) := by
    rw [← List.map_cons (encPair (p * q)) x0 xs, List.map_map]
    rfl
  rw [hmap, add_encrypted_serialized]
  have hfold : (xs.map (encPair (p * q))).foldl
        (fun acc y => addTwo (p * q) acc (normC (p * q) (y.1 : ℤ), y.2))
        (normC (p * q) ((encPair (p * q) x0).1 : ℤ), (encPair (p * q) x0).2)
      = xs.foldl (fun acc y => addTwo (p * q) acc (encPair (p * q) y))
          (encPair (p * q) x0) := by
    rw [List.foldl_map]
    congr 1
    · funext acc y
      simp only [encPair]
      rw [normC_natCast (encryptRaw_lt h0 _ _)]
    · simp only [encPair]
      rw [normC_natCast (encryptRaw_lt h0 _ _)]
  rw [hfold]
  have hFlt : (xs.foldl (fun acc y => addTwo (p * q) acc (encPair (p * q) y))
      (encPair (p * q) x0)).1 < (p * q) ^ 2 :=
    foldl_addTwo_fst_lt h0 xs _ (encryptRaw_lt h0 _ _)
  show decrypt_number p q (serializeEnc
      (xs.foldl (fun acc y => addTwo (p * q) acc (encPair (p * q) y))
        (encPair (p * q) x0)).1
      (xs.foldl (fun acc y => addTwo (p * q) acc (encPair (p * q) y))
        (encPair (p * q) x0)).2) = _
  rw [decrypt_number_serializeEnc _ _ _ _ hFlt]
  obtain ⟨b, hIsb, hcongb, hexpb⟩ := foldl_encPair_spec h0 xs
    (fun it h => hr it (List.mem_cons_of_mem _ h))
    (encPair (p * q) x0) (x0.1, x0.2.1) (encodeMantissa (p * q) x0.1)
    (isEnc_encryptRaw _ (hr x0 (List.mem_cons_self _ _)))
    (encodeMantissa_modEq h0 x0.1) rfl
  rw [decryptRaw_isEnc hp hq hpq hco hIsb]
  have hu : b % (p * q) < p * q := Nat.mod_lt _ (by omega)
  have hcongu : ((b % (p * q) : ℕ) : ℤ)
      ≡ (xs.foldl (fun acc y => alignAdd acc (y.1, y.2.1)) (x0.1, x0.2.1)).1
        [ZMOD ((p * q : ℕ) : ℤ)] :=
    (natCast_mod_modEq b (p * q)).trans hcongb
  rw [decodeMantissa_of_modEq h1 hu hcongu hrange, hexpb]
  have hGmap : xs.foldl (fun acc y => alignAdd acc (y.1, y.2.1)) (x0.1, x0.2.1)
      = (xs.map (fun y : ℤ × ℤ × ℕ => (y.1, y.2.1))).foldl alignAdd (x0.1, x0.2.1) := by
    rw [List.foldl_map]
  have hval := foldl_alignAdd_val (xs.map (fun y : ℤ × ℤ × ℕ => (y.1, y.2.1)))
    (x0.1, x0.2.1)
  rw [List.map_map] at hval
  show Except.ok (encVal
      (xs.foldl (fun acc y => alignAdd acc (y.1, y.2.1)) (x0.1, x0.2.1)).1
      (xs.foldl (fun acc y => alignAdd acc (y.1, y.2.1)) (x0.1, x0.2.1)).2) = _
  rw [hGmap, hval, List.map_cons, List.sum_cons]
  rfl

/-- Witness for C1: under the key pair (11, 13), encrypting 10, 20 and 30
(exponent 0, blindings 2, 3, 2), summing the three ciphertexts
homomorphically and decrypting yields exactly 60, which is within 0.01 of
the expected 60. -/
theorem C1_additive_homomorphism_witness :
    ((add_encrypted_numbers (11 * 13)
        (([((10 : ℤ), (0 : ℤ), (2 : ℕ)), (20, 0, 3), (30, 0, 2)]).map
          (fun it => encrypt_number (11 * 13) it.1 it.2.1 it.2.2))).bind
      (decrypt_number 11 13)
      = .ok (60 : ℚ))
    ∧ |(60 : ℚ) - 60| < 1 / 100 := by
  constructor
  · have h := C1_additive_homomorphism (p := 11) (q := 13) (by decide) (by decide)
      (by decide) (by decide) ((10 : ℤ), (0 : ℤ), (2 : ℕ)) [(20, 0, 3), (30, 0, 2)]
      (by decide) (by decide)
    rw [h]
    norm_num [encVal]
  · norm_num

/-- Witness for C3: under the key pair (5, 7), encrypting 5 and scalar
multiplying by 3 decrypts to exactly 15 (within 0.01 of 15). -/
theorem C3_scalar_multiply_homomorphic_witness :
    ((multiply_encrypted_by_scalar (5 * 7) (encrypt_number (5 * 7) 5 0 2) 3 0).bind
        (decrypt_number 5 7)
      = .ok (encVal 5 0 * encVal 3 0))
    ∧ |(5 : ℚ) * 3 - 15| < 1 / 100 :=
  ⟨C3_scalar_multiply_homomorphic (by decide) (by decide) (by decide) (by decide)
    5 0 2 (by decide) 3 0 (by decide), by norm_num⟩

/-- Counterexample for C4: ciphertexts produced under two different key
pairs (modulus 35 = 5 * 7 carrying the value 2, and modulus 33 = 3 * 11
carrying the value 3) are accepted together by `add_encrypted_numbers`
with no `KeyMismatchError`, and the result decrypts to the bogus value 13
instead of 2 + 3 = 5. -/
theorem C4_cross_key_counterexample :
    (add_encrypted_numbers 35
        [encrypt_number 35 2 0 2, encrypt_number 33 3 0 2]).bind
      (decrypt_number 5 7) = .ok (13 : ℚ)
    ∧ (13 : ℚ) ≠ (5 : ℚ) := by
  constructor
  · have hmap : [encrypt_number 35 2 0 2, encrypt_number 33 3 0 2]
        = ([((encryptRaw 35 2 2 : ℕ), (0 : ℤ)),
            ((encryptRaw 33 3 2 : ℕ), (0 : ℤ))].map
            (fun y => serializeEnc y.1 y.2)) := rfl
    rw [hmap, add_encrypted_serialized, bind_ok_apply, decrypt_number_serializeEnc0]
    have key : ∀ z e : ℤ, z = 13 → e = 0 →
        (Except.ok ((z : ℚ) * (16 : ℚ) ^ e) : Except PyErr ℚ) = .ok 13 := by
      intro z e hz he
      subst hz
      subst he
      norm_num
    exact key _ _ (by decide) (by decide)
  · norm_num

/-- C4 amended: the serialized wire form carries no key reference and the
homomorphic operations attach the caller-supplied public key to every
operand, so combining well-formed ciphertexts — whether or not they come
from the same key pair — always succeeds with a serialized ciphertext
result; no key check exists and `KeyMismatchError` is never raised. -/
theorem C4_cross_key_ops_succeed (nn : ℕ) (x0 : ℕ × ℤ) (xs : List (ℕ × ℤ))
    (c : ℕ) (e km ke : ℤ) :
    add_encrypted_numbers nn ((x0 :: xs).map (fun y => serializeEnc y.1 y.2))
        = .ok (serializeEnc
          (xs.foldl (fun acc y => addTwo nn acc (normC nn (y.1 : ℤ), y.2))
            (normC nn (x0.1 : ℤ), x0.2)).1
          (xs.foldl (fun acc y => addTwo nn acc (normC nn (y.1 : ℤ), y.2))
            (normC nn (x0.1 : ℤ), x0.2)).2)
    ∧ multiply_encrypted_by_scalar nn (serializeEnc c e) km ke
        = .ok (serializeEnc ((normC nn (c : ℤ)) ^ encodeMantissa nn km % nn ^ 2)
            (e + ke)) := by
  refine ⟨add_encrypted_serialized nn x0 xs, ?_⟩
  unfold multiply_encrypted_by_scalar
  rw [parse_enc_serializeEnc]
  rfl

/-- Counterexample for C5: the many-operand addition applied to the empty
sequence fails with `IndexError` (from `encrypted_nums[0]`), which is not
the `EmptyOperandError` the claim requires. -/
theorem C5_empty_counterexample :
    add_encrypted_numbers 35 [] = .error .indexError
    ∧ PyErr.indexError ≠ PyErr.emptyOperandError := by
  constructor
  · rfl
  · decide

/-- C5 amended: addition over an empty operand sequence fails, but with an
uncategorized `IndexError` from indexing the first element, which the
`/compute` route catch-all converts to a generic HTTP 500 server fault —
not with `EmptyOperandError`. -/
theorem C5_empty_fails_with_indexError (nn : ℕ) (pub : Json) (nZ : ℤ)
    (hpub : deserialize_public_key pub = .ok nZ) :
    add_encrypted_numbers nn [] = .error .indexError
    ∧ compute_on_encrypted pub [] "add" none
        = .error (.httpError 500 "Computation failed") := by
  refine ⟨rfl, ?_⟩
  simp only [compute_on_encrypted, hpub]
  rfl

/-- Witness for C5 amended: instantiated at modulus 35 with its serialized
public key. -/
theorem C5_empty_fails_with_indexError_witness :
    add_encrypted_numbers 35 [] = .error .indexError
    ∧ compute_on_encrypted (serialize_public_key 35) [] "add" none
        = .error (.httpError 500 "Computation failed") :=
  C5_empty_fails_with_indexError 35 (serialize_public_key 35) 35 (by decide)

/-- C6: serialization round-trips field-for-field: the public key keeps
its modulus `n`, the private key keeps `p` and `q`, and an encrypted
number reconstructed from its `{ciphertext, exponent}` form keeps both
fields. -/
theorem C6_codec_roundtrip (n p q c : ℕ) (e : ℤ) :
    deserialize_public_key (serialize_public_key n) = .ok (n : ℤ)
    ∧ deserialize_private_key (serialize_private_key p q) = .ok ((p : ℤ), (q : ℤ))
    ∧ parse_enc (serializeEnc c e) = .ok ((c : ℤ), e) :=
  ⟨rfl, rfl, parse_enc_serializeEnc c e⟩

/-- Counterexample for C7: in the serialized public key the modulus field
is a JSON numeral, not a decimal string (for example at n = 35). -/
theorem C7_wire_numbers_counterexample :
    fieldIsDecimalString (serialize_public_key 35) "n" ≠ true := by decide

/-- C7 amended: only the EncryptedNumber `ciphertext` field is carried as
a decimal string; the public key `n`, the private key `p` and `q`, and
the `exponent` are carried as JSON numerals (arbitrary-precision in
Python's `json`, so no truncation, but not strings). -/
theorem C7_only_ciphertext_is_string (n p q c : ℕ) (e : ℤ) :
    fieldIsDecimalString (serialize_public_key n) "n" = false
    ∧ fieldIsDecimalString (serialize_private_key p q) "p" = false
    ∧ fieldIsDecimalString (serialize_private_key p q) "q" = false
    ∧ fieldIsDecimalString (serializeEnc c e) "ciphertext" = true
    ∧ fieldIsDecimalString (serializeEnc c e) "exponent" = false :=
  ⟨rfl, rfl, rfl, rfl, rfl⟩

/-- Counterexample for C8: decoding a public key with the `n` field
missing fails with the uncategorized `KeyError`, and with a non-numeric
string fails with the uncategorized `ValueError` — neither is a
`CodecError` naming the field. -/
theorem C8_uncategorized_errors_counterexample :
    deserialize_public_key (Json.obj []) = .error (PyErr.keyError "n")
    ∧ deserialize_public_key (Json.obj [("n", JLit.str "abc")])
        = .error PyErr.valueError
    ∧ PyErr.keyError "n" ≠ PyErr.codecError "n" := by
  refine ⟨rfl, ?_, by decide⟩
  decide

/-- C8 amended: malformed decoding input does fail, but with the
underlying low-level exception propagating — `KeyError` naming the missing
dictionary key, `ValueError` for a non-numeric string — and never with a
`CodecError`; the route layers catch these only via their generic 500
handlers. -/
theorem C8_decode_failure_modes (fields : List (String × JLit)) (s : String)
    (p q : ℕ) :
    (fields.lookup "n" = none →
      deserialize_public_key (.obj fields) = .error (.keyError "n"))
    ∧ (fields.lookup "n" = some (.str s) → strToInt? s = none →
      deserialize_public_key (.obj fields) = .error .valueError)
    ∧ decrypt_number p q (Json.obj []) = .error (.keyError "ciphertext") := by
  refine ⟨?_, ?_, rfl⟩
  · intro h
    simp [deserialize_public_key, getItem, h, bind, Except.bind]
  · intro h hs
    simp [deserialize_public_key, getItem, pyInt, h, hs, bind, Except.bind]

/-- Witness for C8 amended: a key object without `n`, and one whose `n`
is the non-numeric string "abc". -/
theorem C8_decode_failure_modes_witness :
    deserialize_public_key (Json.obj [("x", JLit.num 1)]) = .error (.keyError "n")
    ∧ deserialize_public_key (Json.obj [("n", JLit.str "abc")])
        = .error PyErr.valueError
    ∧ decrypt_number 5 7 (Json.obj []) = .error (.keyError "ciphertext") :=
  ⟨(C8_decode_failure_modes [("x", .num 1)] "abc" 5 7).1 (by decide),
   (C8_decode_failure_modes [("n", .str "abc")] "abc" 5 7).2.1 (by decide) (by decide),
   (C8_decode_failure_modes [] "abc" 5 7).2.2⟩

/-- C9: on the `/compute` route, an unrecognized operation value is
rejected with the HTTP 400 invalid-operation error, and operation
"multiply" without a multiplier is rejected with the HTTP 400
missing-multiplier error; in both cases no homomorphic arithmetic is
performed (the error is returned before any operand is touched). -/
theorem C9_compute_rejects_caller_errors (pub : Json) (nums : List Json)
    (op : String) (mult : Option (ℤ × ℤ)) (nZ : ℤ)
    (hpub : deserialize_public_key pub = .ok nZ) :
    (pyLower op ≠ "add" → pyLower op ≠ "sum" → pyLower op ≠ "multiply" →
      compute_on_encrypted pub nums op mult
        = .error (.httpError 400 "Invalid operation. Use add, sum, or multiply"))
    ∧ (pyLower op = "multiply" → mult = none →
      compute_on_encrypted pub nums op mult
        = .error (.httpError 400 "Multiplier required for multiply operation")) := by
  constructor
  · intro h1 h2 h3
    simp only [compute_on_encrypted, hpub, bind, Except.bind]
    rw [if_neg (by simp [h1, h2]), if_neg h3]
  · intro h hm
    subst hm
    simp only [compute_on_encrypted, hpub, bind, Except.bind, h]
    simp

/-- Witness for C9: with the serialized key of modulus 35, the operation
"frobnicate" gets the 400 invalid-operation error and the operation
"multiply" without multiplier gets the 400 missing-multiplier error. -/
theorem C9_compute_rejects_caller_errors_witness :
    compute_on_encrypted (serialize_public_key 35) [] "frobnicate" none
        = .error (.httpError 400 "Invalid operation. Use add, sum, or multiply")
    ∧ compute_on_encrypted (serialize_public_key 35) [] "multiply" none
        = .error (.httpError 400 "Multiplier required for multiply operation") :=
  ⟨(C9_compute_rejects_caller_errors (serialize_public_key 35) [] "frobnicate" none
      35 (by decide)).1 (by decide) (by decide) (by decide),
   (C9_compute_rejects_caller_errors (serialize_public_key 35) [] "multiply" none
      35 (by decide)).2 (by decide) rfl⟩

/-- C10: the `/compute` route dispatches on the lowercased operation
string only, so two operation strings with the same lowercase form — for
example "ADD" and "add", "Sum" and "sum", "Multiply" and "multiply" —
produce identical behaviour on every request. -/
theorem C10_operation_case_insensitive (pub : Json) (nums : List Json)
    (op op2 : String) (mult : Option (ℤ × ℤ)) (h : pyLower op = pyLower op2) :
    compute_on_encrypted pub nums op mult = compute_on_encrypted pub nums op2 mult := by
  simp only [compute_on_encrypted, h]

/-- Witness for C10: "ADD" selects the same behaviour as "add" on a
concrete request. -/
theorem C10_operation_case_insensitive_witness :
    compute_on_encrypted (serialize_public_key 35) [] "ADD" none
      = compute_on_encrypted (serialize_public_key 35) [] "add" none :=
  C10_operation_case_insensitive (serialize_public_key 35) [] "ADD" "add" none
    (by decide)

end HomomorphicEncryption

end HomEnc
